import Mathlib

/-!
# Verification of the Hangman round logic

Shallow embedding of `play_hangman_round` and its helpers from
`src/hangman_rust/src/main.rs`. The round loop (lines 100-189) is modelled
as a state machine: the state holds the uppercased secret word, the masked
display, the sorted list of guessed letters and the wrong-guess counter;
one iteration of the loop that reads a line of input is modelled as one
guess submission. The `continue` branches of the loop (invalid length,
non-alphabetic, duplicate) and the terminal returns are surfaced as the
error variants the specification names, each returning the state unchanged,
exactly as the corresponding branch of the loop leaves the state unchanged.
-/

namespace Hangman

/-- `const MAX_WRONG_GUESSES: u8 = 6` (main.rs line 21). -/
def MAX_WRONG_GUESSES : Nat := 6

/-- Number of bytes in the UTF-8 encoding of one character. Rust's
`str::len` (used by the guess length check, main.rs line 147) counts UTF-8
bytes, and every `char` is a unicode scalar value below `0x110000`, so the
four standard UTF-8 length ranges apply. -/
def utf8CharLen (c : Char) : Nat :=
  if c.toNat ≤ 0x7F then 1
  else if c.toNat ≤ 0x7FF then 2
  else if c.toNat ≤ 0xFFFF then 3
  else 4

/-- Rust `str::len` of a string given as its list of characters: the total
number of UTF-8 bytes. -/
def rustStrLen (l : List Char) : Nat := (l.map utf8CharLen).sum

/-- Rust `char::is_whitespace`: the Unicode `White_Space` property. The 25
code points carrying that property are listed exhaustively. -/
def isRustWhitespace (c : Char) : Bool :=
  decide ((0x09 ≤ c.toNat ∧ c.toNat ≤ 0x0D) ∨ c.toNat = 0x20 ∨ c.toNat = 0x85 ∨
    c.toNat = 0xA0 ∨ c.toNat = 0x1680 ∨ (0x2000 ≤ c.toNat ∧ c.toNat ≤ 0x200A) ∨
    c.toNat = 0x2028 ∨ c.toNat = 0x2029 ∨ c.toNat = 0x202F ∨ c.toNat = 0x205F ∨
    c.toNat = 0x3000)

/-- Rust `str::trim` (main.rs lines 50, 144): remove whitespace from both
ends of the string. -/
def rustTrim (l : List Char) : List Char :=
  ((l.dropWhile isRustWhitespace).reverse.dropWhile isRustWhitespace).reverse

/-- Rust `char::to_ascii_uppercase` (main.rs line 156): ASCII lowercase
letters map to the corresponding uppercase letter, every other character is
returned unchanged. -/
def toAsciiUppercase (c : Char) : Char :=
  if 0x61 ≤ c.toNat ∧ c.toNat ≤ 0x7A then Char.ofNat (c.toNat - 0x20) else c

/-- Rust `char::is_ascii_alphabetic` (main.rs line 158). -/
def isAsciiAlphabetic (c : Char) : Bool :=
  decide ((0x41 ≤ c.toNat ∧ c.toNat ≤ 0x5A) ∨ (0x61 ≤ c.toNat ∧ c.toNat ≤ 0x7A))

/-- Per-character model of Rust `String::to_uppercase` (main.rs line 102),
restricted to the ASCII mapping. Rust applies the full Unicode uppercase
mapping, which agrees with this on every ASCII character and on every
character whose Unicode uppercase is itself (digits, punctuation, most
symbols). Non-ASCII characters with a non-identity Unicode mapping (for
example the sharp s, which expands to SS, or the dotless i, which becomes
the ASCII letter I) are outside this restriction, so statements that
quantify over raw secret words are faithful on ASCII words only; statements
about other secrets go through `initRoundFromChars` below, which takes the
program's normalized character sequence directly. -/
def rustUpperChar (c : Char) : Char := toAsciiUppercase c

/-- Rust `String::to_uppercase` of the secret word as a character list
(main.rs line 102), under the ASCII restriction of `rustUpperChar`. -/
def rustToUppercase (l : List Char) : List Char := l.map rustUpperChar

/-- The Unicode uppercase mapping applied by Rust's `String::to_uppercase`
(main.rs line 102) on the characters needed by the counterexamples in this
file: it is one-to-many in general — the sharp s uppercases to the two
letters SS, the dotless i and the long s uppercase to the ASCII letters I
and S — and on ASCII characters it is the ASCII mapping. All other
non-ASCII characters are outside this table and returned unchanged. -/
def rustUnicodeUpperChar (c : Char) : List Char :=
  if c = 'ß' then ['S', 'S']
  else if c = 'ı' then ['I']
  else if c = 'ſ' then ['S']
  else [toAsciiUppercase c]

/-- Rust `String::to_uppercase` as the one-to-many per-character Unicode
mapping, on the fragment covered by `rustUnicodeUpperChar`. -/
def rustToUppercaseFull (l : List Char) : List Char :=
  l.flatMap rustUnicodeUpperChar

/-- The mutable state of one round of `play_hangman_round`
(main.rs lines 102-109): the uppercased secret word characters, the hidden
display, the guessed letters (kept sorted) and the wrong-guess counter.
`wrong` is a `u8` in the source; it never exceeds `MAX_WRONG_GUESSES + 1`
so `Nat` models it without overflow. -/
structure Round where
  secret : List Char
  mask : List Char
  guessed : List Char
  wrong : Nat

deriving instance DecidableEq, Repr for Round

/-- The tri-state round outcome of the specification. -/
inductive RoundOutcome where
  | inProgress
  | won
  | lost

deriving instance DecidableEq, Repr for RoundOutcome

/-- The per-submission errors of the specification, one per `continue` or
refusal branch of the loop. -/
inductive GuessError where
  | roundAlreadyOver
  | invalidGuessLength
  | nonAlphabeticGuess
  | duplicateGuess

deriving instance DecidableEq, Repr for GuessError

/-- Result of one guess submission: accepted (with the correct/incorrect
report of main.rs lines 183-188) or rejected with an error. -/
inductive SubmitResult where
  | ok (correct : Bool)
  | err (e : GuessError)

deriving instance DecidableEq, Repr for SubmitResult

/-- The outcome checks at the top of the round loop (main.rs lines
122-134): the loss check `wrong_guesses_count >= MAX_WRONG_GUESSES` comes
first, then the win check that no underscore is left in the display. -/
def outcome (r : Round) : RoundOutcome :=
  if MAX_WRONG_GUESSES ≤ r.wrong then .lost
  else if r.mask.all (fun c => c != '_') then .won
  else .inProgress

/-- Round construction (main.rs lines 100-109): uppercase the secret word,
display of underscores of the same length, no guessed letters, zero wrong
guesses. The source performs no validation of the secret word. -/
def initRound (secret_word_str : List Char) : Round :=
  let secret_word_chars := rustToUppercase secret_word_str
  { secret := secret_word_chars
    mask := List.replicate secret_word_chars.length '_'
    guessed := []
    wrong := 0 }

/-- Round construction from the already-normalized character sequence
`secret_word_chars` of main.rs line 102, that is, the state right after the
uppercasing: display of underscores of the same length, no guessed letters,
zero wrong guesses. Every run of the program starts from such a state, so
statements over all `secret_word_chars` cover the program for every raw
secret word without relying on any model of `String::to_uppercase`. -/
def initRoundFromChars (secret_word_chars : List Char) : Round :=
  { secret := secret_word_chars
    mask := List.replicate secret_word_chars.length '_'
    guessed := []
    wrong := 0 }

/-- Ordered insertion into a sorted character list, comparing by code
point. -/
def insertSorted (c : Char) : List Char → List Char
  | [] => [c]
  | d :: ds => if c.toNat ≤ d.toNat then c :: d :: ds else d :: insertSorted c ds

/-- Model of `Vec::sort_unstable` on the guessed letters (main.rs line
171), sorting by code point. Characters are totally ordered by code point,
so the sorted result is unique and stability is irrelevant. -/
def sortChars : List Char → List Char
  | [] => []
  | c :: cs => insertSorted c (sortChars cs)

/-- The reveal scan (main.rs lines 174-180): every position of the secret
word equal to the guessed character is set to that character in the
display; all other display positions are unchanged. The source indexes the
display by the secret word's positions; the two lists always have equal
length. -/
def revealMatches (g : Char) : List Char → List Char → List Char
  | sc :: ss, mc :: ms => (if sc = g then g else mc) :: revealMatches g ss ms
  | _, _ => []

/-- The normalized guess character (main.rs lines 152-156): first character
of the trimmed input, ASCII uppercased. It is only consulted after the
length check, when the trimmed input is a single ASCII character, so the
default of `headD` is never reached. -/
def guessedCharOf (input : List Char) : Char :=
  toAsciiUppercase ((rustTrim input).headD 'A')

/-- Applying a new valid guess (main.rs lines 169-188): record the guess,
keep the guessed list sorted, reveal all matching positions, and increment
the wrong-guess counter exactly when no position matched. -/
def applyGuess (r : Round) (g : Char) : Round × SubmitResult :=
  let found_in_word := r.secret.contains g
  ({ secret := r.secret
     mask := revealMatches g r.secret r.mask
     guessed := sortChars (r.guessed ++ [g])
     wrong := if found_in_word then r.wrong else r.wrong + 1 }, .ok found_in_word)

/-- One iteration of the guess loop viewed as a guess submission
(main.rs lines 122-188). The checks run in the source's order: round
already over (the loop has returned and reads no further input), trimmed
length in bytes equal to 1, ASCII alphabetic, not already guessed; each
failing check ends the call with its error and the state unchanged, exactly
as the corresponding `continue` skips every mutation. -/
def submitGuess (r : Round) (input : List Char) : Round × SubmitResult :=
  if outcome r = .inProgress then
    if rustStrLen (rustTrim input) = 1 then
      if isAsciiAlphabetic (guessedCharOf input) then
        if r.guessed.contains (guessedCharOf input) then (r, .err .duplicateGuess)
        else applyGuess r (guessedCharOf input)
      else (r, .err .nonAlphabeticGuess)
    else (r, .err .invalidGuessLength)
  else (r, .err .roundAlreadyOver)

/-- Feeding a list of input lines to a round, one submission each. -/
def runGuesses (r : Round) (inputs : List (List Char)) : Round :=
  inputs.foldl (fun st s => (submitGuess st s).1) r

/-- A round state is reachable when some secret word and some input
sequence produce it. -/
def Reachable (r : Round) : Prop :=
  ∃ w inputs, r = runGuesses (initRound w) inputs

/-- The whole of `play_hangman_round` (main.rs lines 100-190) on a given
input stream: `some true` when the loop returns having won, `some false`
having lost, `none` when the inputs run out while the round is still in
progress (the source would block reading more input). -/
def play_hangman_round (secret_word_str : List Char)
    (inputs : List (List Char)) : Option Bool :=
  match outcome (runGuesses (initRound secret_word_str) inputs) with
  | .lost => some false
  | .won => some true
  | .inProgress => none

/-! ## Character-level helper lemmas -/

lemma toNat_ofNat_valid (n : Nat) (h : n < 0xD800) : (Char.ofNat n).toNat = n := by
  have hv : n.isValidChar := Or.inl h
  simp [Char.ofNat, dif_pos hv, Char.ofNatAux, Char.toNat, UInt32.toNat]

lemma char_eq_of_toNat_eq {c d : Char} (h : c.toNat = d.toNat) : c = d := by
  have h2 := congrArg Char.ofNat h
  rwa [Char.ofNat_toNat, Char.ofNat_toNat] at h2

lemma toNat_toAsciiUppercase (c : Char) :
    (toAsciiUppercase c).toNat =
      if 0x61 ≤ c.toNat ∧ c.toNat ≤ 0x7A then c.toNat - 0x20 else c.toNat := by
  unfold toAsciiUppercase
  by_cases h : 0x61 ≤ c.toNat ∧ c.toNat ≤ 0x7A
  · rw [if_pos h, if_pos h, toNat_ofNat_valid _ (by omega)]
  · rw [if_neg h, if_neg h]

lemma toAsciiUppercase_idem (c : Char) :
    toAsciiUppercase (toAsciiUppercase c) = toAsciiUppercase c := by
  apply char_eq_of_toNat_eq
  rw [toNat_toAsciiUppercase, toNat_toAsciiUppercase]
  by_cases h : 0x61 ≤ c.toNat ∧ c.toNat ≤ 0x7A
  · rw [if_pos h, if_neg (by omega)]
  · rw [if_neg h, if_neg h]

lemma isAsciiAlphabetic_toAsciiUppercase (c : Char) :
    isAsciiAlphabetic (toAsciiUppercase c) = isAsciiAlphabetic c := by
  simp only [isAsciiAlphabetic, toNat_toAsciiUppercase]
  by_cases h : 0x61 ≤ c.toNat ∧ c.toNat ≤ 0x7A
  · rw [if_pos h, decide_eq_decide]; omega
  · rw [if_neg h]

lemma alpha_not_whitespace {c : Char} (h : isAsciiAlphabetic c = true) :
    isRustWhitespace c = false := by
  rw [isAsciiAlphabetic, decide_eq_true_eq] at h
  rw [isRustWhitespace, decide_eq_false_iff_not]
  omega

lemma alpha_utf8CharLen {c : Char} (h : isAsciiAlphabetic c = true) :
    utf8CharLen c = 1 := by
  rw [isAsciiAlphabetic, decide_eq_true_eq] at h
  rw [utf8CharLen, if_pos (by omega)]

lemma alpha_ne_underscore {c : Char} (h : isAsciiAlphabetic c = true) :
    c ≠ '_' := by
  intro hc
  subst hc
  exact absurd h (by decide)

/-! ## Trim, length and guess-character helper lemmas -/

lemma rustTrim_single {c : Char} (h : isRustWhitespace c = false) :
    rustTrim [c] = [c] := by
  simp [rustTrim, List.dropWhile, h]

lemma rustStrLen_single (c : Char) : rustStrLen [c] = utf8CharLen c := by
  simp [rustStrLen]

lemma guessedCharOf_single {c : Char} (h : isRustWhitespace c = false) :
    guessedCharOf [c] = toAsciiUppercase c := by
  simp [guessedCharOf, rustTrim_single h]

/-! ## List helper lemmas -/

lemma getD_oob (l : List Char) (i : Nat) (d : Char) (h : l.length ≤ i) :
    l.getD i d = d := by
  induction l generalizing i with
  | nil => simp
  | cons a as ih =>
    cases i with
    | zero => simp at h
    | succ j => simpa using ih j (by simpa using h)

lemma getD_mem (l : List Char) (i : Nat) (d : Char) (h : i < l.length) :
    l.getD i d ∈ l := by
  induction l generalizing i with
  | nil => simp at h
  | cons a as ih =>
    cases i with
    | zero => simp
    | succ j =>
      have h2 := ih j (by simpa using h)
      right
      simpa using h2

lemma getD_replicate (n i : Nat) (c d : Char) (h : i < n) :
    (List.replicate n c).getD i d = c := by
  induction n generalizing i with
  | zero => omega
  | succ m ih =>
    cases i with
    | zero => simp [List.replicate]
    | succ j => simpa [List.replicate] using ih j (by omega)

lemma getD_map (f : Char → Char) (l : List Char) (i : Nat) (d e : Char)
    (h : i < l.length) : (l.map f).getD i e = f (l.getD i d) := by
  induction l generalizing i with
  | nil => simp at h
  | cons a as ih =>
    cases i with
    | zero => simp
    | succ j => simpa using ih j (by simpa using h)

lemma mem_insertSorted (a c : Char) (l : List Char) :
    a ∈ insertSorted c l ↔ a = c ∨ a ∈ l := by
  induction l with
  | nil => simp [insertSorted]
  | cons d ds ih =>
    rw [insertSorted]
    by_cases h : c.toNat ≤ d.toNat
    · simp [if_pos h]
    · rw [if_neg h]
      simp [ih]
      tauto

lemma mem_sortChars (a : Char) (l : List Char) :
    a ∈ sortChars l ↔ a ∈ l := by
  induction l with
  | nil => simp [sortChars]
  | cons c cs ih =>
    rw [sortChars, mem_insertSorted]
    simp [ih]

lemma contains_iff_mem (l : List Char) (a : Char) :
    l.contains a = true ↔ a ∈ l := by
  simp [List.contains, List.elem_iff]

/-! ## Reveal-scan helper lemmas -/

lemma revealMatches_length (g : Char) (ss ms : List Char)
    (h : ms.length = ss.length) : (revealMatches g ss ms).length = ss.length := by
  induction ss generalizing ms with
  | nil => simp [revealMatches]
  | cons sc rest ih =>
    cases ms with
    | nil => simp at h
    | cons mc mrest =>
      rw [revealMatches]
      simpa using ih mrest (by simpa using h)

lemma revealMatches_getD (g : Char) (ss ms : List Char) (i : Nat) (d : Char)
    (h : ss.length = ms.length) (hi : i < ss.length) :
    (revealMatches g ss ms).getD i d =
      if ss.getD i d = g then g else ms.getD i d := by
  induction ss generalizing ms i with
  | nil => simp at hi
  | cons sc rest ih =>
    cases ms with
    | nil => simp at h
    | cons mc mrest =>
      cases i with
      | zero => rw [revealMatches]; simp
      | succ j =>
        rw [revealMatches]
        simpa using ih mrest j (by simpa using h) (by simpa using hi)

lemma revealMatches_not_mem (g : Char) (ss ms : List Char)
    (h : ss.length = ms.length) (hg : ∀ c ∈ ss, c ≠ g) :
    revealMatches g ss ms = ms := by
  induction ss generalizing ms with
  | nil =>
    cases ms with
    | nil => rfl
    | cons mc mrest => simp at h
  | cons sc rest ih =>
    cases ms with
    | nil => simp at h
    | cons mc mrest =>
      rw [revealMatches, if_neg (hg sc (by simp))]
      rw [ih mrest (by simpa using h) (fun c hc => hg c (by simp [hc]))]

/-! ## Submission case lemmas -/

lemma submitGuess_over {r : Round} (s : List Char)
    (h : outcome r ≠ .inProgress) :
    submitGuess r s = (r, .err .roundAlreadyOver) := by
  rw [submitGuess, if_neg h]

lemma submitGuess_len {r : Round} {s : List Char}
    (h1 : outcome r = .inProgress) (h2 : rustStrLen (rustTrim s) ≠ 1) :
    submitGuess r s = (r, .err .invalidGuessLength) := by
  rw [submitGuess, if_pos h1, if_neg h2]

lemma submitGuess_nonalpha {r : Round} {s : List Char}
    (h1 : outcome r = .inProgress) (h2 : rustStrLen (rustTrim s) = 1)
    (h3 : isAsciiAlphabetic (guessedCharOf s) = false) :
    submitGuess r s = (r, .err .nonAlphabeticGuess) := by
  rw [submitGuess, if_pos h1, if_pos h2, if_neg (by simp [h3])]

lemma submitGuess_dup {r : Round} {s : List Char}
    (h1 : outcome r = .inProgress) (h2 : rustStrLen (rustTrim s) = 1)
    (h3 : isAsciiAlphabetic (guessedCharOf s) = true)
    (h4 : r.guessed.contains (guessedCharOf s) = true) :
    submitGuess r s = (r, .err .duplicateGuess) := by
  rw [submitGuess, if_pos h1, if_pos h2, if_pos h3, if_pos h4]

lemma submitGuess_new {r : Round} {s : List Char}
    (h1 : outcome r = .inProgress) (h2 : rustStrLen (rustTrim s) = 1)
    (h3 : isAsciiAlphabetic (guessedCharOf s) = true)
    (h4 : r.guessed.contains (guessedCharOf s) = false) :
    submitGuess r s = applyGuess r (guessedCharOf s) := by
  rw [submitGuess, if_pos h1, if_pos h2, if_pos h3,
    if_neg (by rw [h4]; exact Bool.false_ne_true)]

/-- Every submission either fails with some error and returns the state
unchanged, or is a fully validated new guess applied by `applyGuess`. -/
lemma submitGuess_cases (r : Round) (s : List Char) :
    (∃ e, submitGuess r s = (r, .err e)) ∨
      (outcome r = .inProgress ∧ isAsciiAlphabetic (guessedCharOf s) = true ∧
        r.guessed.contains (guessedCharOf s) = false ∧
        submitGuess r s = applyGuess r (guessedCharOf s)) := by
  by_cases h1 : outcome r = .inProgress
  · by_cases h2 : rustStrLen (rustTrim s) = 1
    · by_cases h3 : isAsciiAlphabetic (guessedCharOf s) = true
      · by_cases h4 : r.guessed.contains (guessedCharOf s) = true
        · exact Or.inl ⟨.duplicateGuess, submitGuess_dup h1 h2 h3 h4⟩
        · right
          exact ⟨h1, h3, by simpa using h4,
            submitGuess_new h1 h2 h3 (by simpa using h4)⟩
      · exact Or.inl ⟨.nonAlphabeticGuess,
          submitGuess_nonalpha h1 h2 (by simpa using h3)⟩
    · exact Or.inl ⟨.invalidGuessLength, submitGuess_len h1 h2⟩
  · exact Or.inl ⟨.roundAlreadyOver, submitGuess_over s h1⟩

lemma applyGuess_fst (r : Round) (g : Char) :
    (applyGuess r g).1 =
      { secret := r.secret
        mask := revealMatches g r.secret r.mask
        guessed := sortChars (r.guessed ++ [g])
        wrong := if r.secret.contains g then r.wrong else r.wrong + 1 } := rfl

lemma applyGuess_snd (r : Round) (g : Char) :
    (applyGuess r g).2 = .ok (r.secret.contains g) := rfl

lemma applyGuess_eq (r : Round) (g : Char) :
    applyGuess r g =
      ({ secret := r.secret
         mask := revealMatches g r.secret r.mask
         guessed := sortChars (r.guessed ++ [g])
         wrong := if r.secret.contains g then r.wrong else r.wrong + 1 },
        .ok (r.secret.contains g)) := rfl

lemma submitGuess_secret (r : Round) (s : List Char) :
    (submitGuess r s).1.secret = r.secret := by
  rcases submitGuess_cases r s with ⟨e, h⟩ | ⟨-, -, -, h⟩
  · rw [h]
  · rw [h, applyGuess_fst]

lemma runGuesses_nil (r : Round) : runGuesses r [] = r := rfl

lemma runGuesses_cons (r : Round) (s : List Char) (rest : List (List Char)) :
    runGuesses r (s :: rest) = runGuesses ((submitGuess r s).1) rest := rfl

lemma runGuesses_append (r : Round) (l1 l2 : List (List Char)) :
    runGuesses r (l1 ++ l2) = runGuesses (runGuesses r l1) l2 := by
  simp [runGuesses, List.foldl_append]

lemma runGuesses_secret (r : Round) (inputs : List (List Char)) :
    (runGuesses r inputs).secret = r.secret := by
  induction inputs generalizing r with
  | nil => rfl
  | cons s rest ih =>
    rw [runGuesses_cons, ih, submitGuess_secret]

/-! ## Outcome characterizations -/

lemma outcome_lost_iff (r : Round) :
    outcome r = .lost ↔ MAX_WRONG_GUESSES ≤ r.wrong := by
  unfold outcome
  by_cases h1 : MAX_WRONG_GUESSES ≤ r.wrong
  · rw [if_pos h1]
    simp [h1]
  · rw [if_neg h1]
    by_cases h2 : r.mask.all (fun c => c != '_')
    · rw [if_pos h2]
      simp [h1]
    · rw [if_neg h2]
      simp [h1]

lemma outcome_won_iff (r : Round) :
    outcome r = .won ↔
      r.wrong < MAX_WRONG_GUESSES ∧ ∀ c ∈ r.mask, c ≠ '_' := by
  unfold outcome
  by_cases h1 : MAX_WRONG_GUESSES ≤ r.wrong
  · rw [if_pos h1]
    constructor
    · intro hc
      exact absurd hc (by simp)
    · intro hc
      exact absurd hc.1 (by omega)
  · rw [if_neg h1]
    by_cases h2 : r.mask.all (fun c => c != '_')
    · rw [if_pos h2]
      simp only [List.all_eq_true, bne_iff_ne] at h2
      constructor
      · intro _
        exact ⟨by omega, h2⟩
      · intro _
        rfl
    · rw [if_neg h2]
      simp only [List.all_eq_true, bne_iff_ne] at h2
      constructor
      · intro hc
        exact absurd hc (by simp)
      · rintro ⟨-, hall⟩
        exact absurd hall h2

lemma outcome_inProgress_iff (r : Round) :
    outcome r = .inProgress ↔
      r.wrong < MAX_WRONG_GUESSES ∧ '_' ∈ r.mask := by
  unfold outcome
  by_cases h1 : MAX_WRONG_GUESSES ≤ r.wrong
  · rw [if_pos h1]
    constructor
    · intro hc
      exact absurd hc (by simp)
    · intro hc
      exact absurd hc.1 (by omega)
  · rw [if_neg h1]
    by_cases h2 : r.mask.all (fun c => c != '_')
    · rw [if_pos h2]
      simp only [List.all_eq_true, bne_iff_ne] at h2
      constructor
      · intro hc
        exact absurd hc (by simp)
      · rintro ⟨-, hmem⟩
        exact absurd rfl (h2 _ hmem)
    · rw [if_neg h2]
      constructor
      · intro _
        refine ⟨by omega, ?_⟩
        by_contra hmem
        apply h2
        simp only [List.all_eq_true, bne_iff_ne]
        intro c hc hceq
        exact hmem (hceq ▸ hc)
      · intro _
        rfl

/-! ## The round invariant -/

/-- Invariant maintained by every reachable round state: the display has
the secret word's length, the wrong-guess counter is bounded, a display
with no underscore left is only possible while the counter is below the
bound, every display slot is either hidden or the secret character at that
position, and slots whose secret character is not ASCII alphabetic are
hidden. -/
def Inv (r : Round) : Prop :=
  r.mask.length = r.secret.length ∧
  r.wrong ≤ MAX_WRONG_GUESSES ∧
  (MAX_WRONG_GUESSES ≤ r.wrong → '_' ∈ r.mask) ∧
  (∀ i, i < r.secret.length →
    r.mask.getD i '_' = '_' ∨ r.mask.getD i '_' = r.secret.getD i '_') ∧
  (∀ i, i < r.secret.length → isAsciiAlphabetic (r.secret.getD i '_') = false →
    r.mask.getD i '_' = '_')

lemma initRound_eq_fromChars (w : List Char) :
    initRound w = initRoundFromChars (rustToUppercase w) := rfl

lemma inv_initRoundFromChars (cs : List Char) : Inv (initRoundFromChars cs) := by
  refine ⟨by simp [initRoundFromChars],
    by simp [initRoundFromChars, MAX_WRONG_GUESSES], ?_, ?_, ?_⟩
  · intro h
    simp [initRoundFromChars, MAX_WRONG_GUESSES] at h
  · intro i hi
    left
    have hi2 : i < cs.length := by simpa [initRoundFromChars] using hi
    show (List.replicate cs.length '_').getD i '_' = '_'
    exact getD_replicate _ i '_' '_' hi2
  · intro i hi _
    have hi2 : i < cs.length := by simpa [initRoundFromChars] using hi
    show (List.replicate cs.length '_').getD i '_' = '_'
    exact getD_replicate _ i '_' '_' hi2

lemma inv_initRound (w : List Char) : Inv (initRound w) := by
  refine ⟨by simp [initRound], by simp [initRound, MAX_WRONG_GUESSES], ?_, ?_, ?_⟩
  · intro h
    simp [initRound, MAX_WRONG_GUESSES] at h
  · intro i hi
    left
    have hi2 : i < (rustToUppercase w).length := by simpa [initRound] using hi
    show (List.replicate (rustToUppercase w).length '_').getD i '_' = '_'
    exact getD_replicate _ i '_' '_' hi2
  · intro i hi _
    have hi2 : i < (rustToUppercase w).length := by simpa [initRound] using hi
    show (List.replicate (rustToUppercase w).length '_').getD i '_' = '_'
    exact getD_replicate _ i '_' '_' hi2

lemma inv_applyGuess {r : Round} {g : Char} (h : Inv r)
    (hip : outcome r = .inProgress) (hg : isAsciiAlphabetic g = true) :
    Inv (applyGuess r g).1 := by
  obtain ⟨hlen, hb, hfull, hpt, hbad⟩ := h
  obtain ⟨hw, hmem⟩ := (outcome_inProgress_iff r).1 hip
  rw [applyGuess_fst]
  by_cases hc : r.secret.contains g = true
  · refine ⟨?_, ?_, ?_, ?_, ?_⟩
    · simpa using revealMatches_length g r.secret r.mask hlen
    · simp only [if_pos hc]
      exact hb
    · simp only [if_pos hc]
      intro h6
      exact absurd h6 (by omega)
    · intro i hi
      simp only at hi ⊢
      rw [revealMatches_getD g r.secret r.mask i '_' hlen.symm hi]
      by_cases he : r.secret.getD i '_' = g
      · rw [if_pos he]
        right
        exact he.symm
      · rw [if_neg he]
        exact hpt i hi
    · intro i hi hba
      simp only at hi hba ⊢
      rw [revealMatches_getD g r.secret r.mask i '_' hlen.symm hi]
      by_cases he : r.secret.getD i '_' = g
      · rw [← he] at hg
        rw [hg] at hba
        exact absurd hba (by simp)
      · rw [if_neg he]
        exact hbad i hi hba
  · have hnm : ∀ c ∈ r.secret, c ≠ g := by
      intro c hcm hce
      subst hce
      exact hc ((contains_iff_mem r.secret c).2 hcm)
    have hrw : revealMatches g r.secret r.mask = r.mask :=
      revealMatches_not_mem g r.secret r.mask hlen.symm hnm
    refine ⟨?_, ?_, ?_, ?_, ?_⟩
    · simpa [hrw] using hlen
    · simp only [if_neg hc]
      omega
    · intro _
      simpa [hrw] using hmem
    · intro i hi
      simp only [hrw] at *
      exact hpt i hi
    · intro i hi hba
      simp only [hrw] at *
      exact hbad i hi hba

lemma inv_submitGuess {r : Round} (s : List Char) (h : Inv r) :
    Inv (submitGuess r s).1 := by
  rcases submitGuess_cases r s with ⟨e, heq⟩ | ⟨hip, halpha, -, heq⟩
  · rw [heq]
    exact h
  · rw [heq]
    exact inv_applyGuess h hip halpha

lemma inv_runGuesses {r : Round} (inputs : List (List Char)) (h : Inv r) :
    Inv (runGuesses r inputs) := by
  induction inputs generalizing r with
  | nil => exact h
  | cons s rest ih =>
    rw [runGuesses_cons]
    exact ih (inv_submitGuess s h)

lemma inv_reachable {r : Round} (h : Reachable r) : Inv r := by
  obtain ⟨w, inputs, rfl⟩ := h
  exact inv_runGuesses inputs (inv_initRound w)

/-- A submission never hides a revealed display slot. -/
lemma mask_mono_step {r : Round} (s : List Char) (h : Inv r) (i : Nat)
    (hrev : r.mask.getD i '_' ≠ '_') :
    (submitGuess r s).1.mask.getD i '_' = r.mask.getD i '_' := by
  rcases submitGuess_cases r s with ⟨e, heq⟩ | ⟨hip, halpha, -, heq⟩
  · rw [heq]
  · obtain ⟨hlen, -, -, hpt, -⟩ := h
    rw [heq, applyGuess_fst]
    show (revealMatches (guessedCharOf s) r.secret r.mask).getD i '_' =
      r.mask.getD i '_'
    have hib : i < r.mask.length := by
      by_contra hge
      exact hrev (getD_oob _ _ _ (by omega))
    have his : i < r.secret.length := by omega
    rw [revealMatches_getD _ _ _ i '_' hlen.symm his]
    by_cases he : r.secret.getD i '_' = guessedCharOf s
    · rw [if_pos he]
      rcases hpt i his with h0 | h0
      · exact absurd h0 hrev
      · rw [h0, he]
    · rw [if_neg he]

/-- Revealed display slots stay revealed for any further input sequence. -/
lemma mask_mono_run {r : Round} (more : List (List Char)) (h : Inv r)
    (i : Nat) (hrev : r.mask.getD i '_' ≠ '_') :
    (runGuesses r more).mask.getD i '_' = r.mask.getD i '_' := by
  induction more generalizing r with
  | nil => rfl
  | cons s rest ih =>
    rw [runGuesses_cons]
    have h2 := inv_submitGuess s h
    have hstep := mask_mono_step s h i hrev
    rw [ih h2 (by rw [hstep]; exact hrev), hstep]

/-- The display of every reachable round has the secret word's length. -/
lemma mask_length_reachable (w : List Char) (inputs : List (List Char)) :
    (runGuesses (initRound w) inputs).mask.length = w.length := by
  have h := (inv_runGuesses inputs (inv_initRound w)).1
  have hs := runGuesses_secret (initRound w) inputs
  rw [h, hs]
  simp [initRound, rustToUppercase]

/-- Two inputs with the same trimmed byte length and the same normalized
guess character are processed identically. -/
lemma submitGuess_congr (r : Round) {s t : List Char}
    (hlen : rustStrLen (rustTrim s) = rustStrLen (rustTrim t))
    (hg : guessedCharOf s = guessedCharOf t) :
    submitGuess r s = submitGuess r t := by
  rw [submitGuess, submitGuess, hlen, hg]

/-! ## Claim theorems -/

/-- Claim C1, counterexample: the source performs no construction-time
validation of the secret word and has no invalid-word error at all.
Constructing a round from the empty word succeeds and the round is
immediately Won; constructing from the non-alphabetic word consisting of
the digit one succeeds, the round is in progress and processes guesses
normally. -/
theorem claim_C1_counterexample :
    outcome (initRound []) = .won ∧
    outcome (initRound ['1']) = .inProgress ∧
    (submitGuess (initRound ['1']) ['a']).2 = .ok false := by
  decide

/-- Claim C1 as amended: construction never fails (the program has no
invalid-word error); for every valid — non-empty, all ASCII-alphabetic —
secret word, construction succeeds and the round starts with an
all-placeholder mask of the word's length, an empty guessed set and a
wrong count of zero. On this domain the uppercase normalization is the
per-character ASCII mapping, exactly as in Rust, so the mask length equals
the word's character count. -/
theorem claim_C1_initial_state (w : List Char) (_hw : w ≠ [])
    (_ha : ∀ c ∈ w, isAsciiAlphabetic c = true) :
    (initRound w).mask = List.replicate w.length '_' ∧
    (initRound w).guessed = [] ∧
    (initRound w).wrong = 0 := by
  refine ⟨?_, rfl, rfl⟩
  simp [initRound, rustToUppercase]

/-- Witness for C1: the valid word CAT yields the fresh three-slot round. -/
theorem claim_C1_witness :
    (initRound ['C', 'A', 'T']).mask = List.replicate 3 '_' ∧
    (initRound ['C', 'A', 'T']).guessed = [] ∧
    (initRound ['C', 'A', 'T']).wrong = 0 :=
  claim_C1_initial_state ['C', 'A', 'T'] (by decide) (by decide)

/-- Claim C2: for every reachable round state the outcome is Won iff the
mask contains no placeholder, Lost iff the wrong count equals MaxWrong and
the outcome is not Won; and once the outcome is not InProgress every
further submission fails with the round-already-over error and returns the
state unchanged. -/
theorem claim_C2_outcome_characterization (r : Round) (hr : Reachable r) :
    (outcome r = .won ↔ '_' ∉ r.mask) ∧
    (outcome r = .lost ↔
      (r.wrong = MAX_WRONG_GUESSES ∧ outcome r ≠ .won)) ∧
    (∀ s, outcome r ≠ .inProgress →
      submitGuess r s = (r, .err .roundAlreadyOver)) := by
  obtain ⟨hlen, hb, hfull, hpt, hbad⟩ := inv_reachable hr
  refine ⟨?_, ?_, fun s h => submitGuess_over s h⟩
  · rw [outcome_won_iff]
    constructor
    · rintro ⟨-, hall⟩ hmem
      exact hall _ hmem rfl
    · intro hnm
      refine ⟨?_, fun c hc hceq => hnm (hceq ▸ hc)⟩
      by_contra hge
      exact hnm (hfull (by omega))
  · rw [outcome_lost_iff]
    constructor
    · intro hge
      refine ⟨by omega, ?_⟩
      intro hw
      rw [outcome_won_iff] at hw
      exact absurd hw.1 (by omega)
    · rintro ⟨heq, -⟩
      omega

/-- Witness for C2: the concrete round with secret word DOG after six wrong
guesses is terminal, and a further guess fails with the round-already-over
error, leaving the state unchanged. -/
theorem claim_C2_witness :
    submitGuess
        (runGuesses (initRound ['D', 'O', 'G'])
          [['X'], ['Q'], ['Z'], ['W'], ['U'], ['B']]) ['D'] =
      (runGuesses (initRound ['D', 'O', 'G'])
          [['X'], ['Q'], ['Z'], ['W'], ['U'], ['B']],
        .err .roundAlreadyOver) :=
  (claim_C2_outcome_characterization _
      ⟨['D', 'O', 'G'], [['X'], ['Q'], ['Z'], ['W'], ['U'], ['B']], rfl⟩).2.2
    ['D'] (by decide)

/-- Claim C3: the validation checks of a submission run in the fixed
source order: round already over, then trimmed length equal to one, then
alphabetic, then not already guessed; each failing check terminates the
call with its distinct error and returns the round state unchanged. -/
theorem claim_C3_validation_order (r : Round) (s : List Char) :
    (outcome r ≠ .inProgress →
      submitGuess r s = (r, .err .roundAlreadyOver)) ∧
    (outcome r = .inProgress → rustStrLen (rustTrim s) ≠ 1 →
      submitGuess r s = (r, .err .invalidGuessLength)) ∧
    (outcome r = .inProgress → rustStrLen (rustTrim s) = 1 →
      isAsciiAlphabetic (guessedCharOf s) = false →
      submitGuess r s = (r, .err .nonAlphabeticGuess)) ∧
    (outcome r = .inProgress → rustStrLen (rustTrim s) = 1 →
      isAsciiAlphabetic (guessedCharOf s) = true →
      r.guessed.contains (guessedCharOf s) = true →
      submitGuess r s = (r, .err .duplicateGuess)) :=
  ⟨fun h => submitGuess_over s h,
    fun h1 h2 => submitGuess_len h1 h2,
    fun h1 h2 h3 => submitGuess_nonalpha h1 h2 h3,
    fun h1 h2 h3 h4 => submitGuess_dup h1 h2 h3 h4⟩

/-- Witness for C3: on a fresh round with secret word CAT, the two-letter
input ab and the empty input fail the length check and the digit input 5
fails the alphabetic check, each with its error and no state change. -/
theorem claim_C3_witness :
    submitGuess (initRound ['C', 'A', 'T']) ['a', 'b'] =
      (initRound ['C', 'A', 'T'], .err .invalidGuessLength) ∧
    submitGuess (initRound ['C', 'A', 'T']) ['5'] =
      (initRound ['C', 'A', 'T'], .err .nonAlphabeticGuess) ∧
    submitGuess (initRound ['C', 'A', 'T']) [] =
      (initRound ['C', 'A', 'T'], .err .invalidGuessLength) :=
  ⟨(claim_C3_validation_order (initRound ['C', 'A', 'T']) ['a', 'b']).2.1
      (by decide) (by decide),
    (claim_C3_validation_order (initRound ['C', 'A', 'T']) ['5']).2.2.1
      (by decide) (by decide) (by decide),
    (claim_C3_validation_order (initRound ['C', 'A', 'T']) []).2.1
      (by decide) (by decide)⟩

/-- Claim C8: submitting a character already in the guessed set fails with
the duplicate-guess error and applies no penalty: wrong count, mask and
guessed set are all unchanged. -/
theorem claim_C8_duplicate_no_penalty (r : Round) (s : List Char)
    (h1 : outcome r = .inProgress) (h2 : rustStrLen (rustTrim s) = 1)
    (h3 : isAsciiAlphabetic (guessedCharOf s) = true)
    (h4 : r.guessed.contains (guessedCharOf s) = true) :
    (submitGuess r s).1.mask = r.mask ∧
    (submitGuess r s).1.guessed = r.guessed ∧
    (submitGuess r s).1.wrong = r.wrong ∧
    (submitGuess r s).2 = .err .duplicateGuess := by
  rw [submitGuess_dup h1 h2 h3 h4]
  exact ⟨rfl, rfl, rfl, rfl⟩

/-- Witness for C8: after guessing A on the round with secret word CAT,
guessing a again is rejected as a duplicate with no state change. -/
theorem claim_C8_witness :
    (submitGuess (runGuesses (initRound ['C', 'A', 'T']) [['A']]) ['a']).1.wrong =
      (runGuesses (initRound ['C', 'A', 'T']) [['A']]).wrong ∧
    (submitGuess (runGuesses (initRound ['C', 'A', 'T']) [['A']]) ['a']).2 =
      .err .duplicateGuess :=
  ⟨(claim_C8_duplicate_no_penalty (runGuesses (initRound ['C', 'A', 'T']) [['A']])
      ['a'] (by decide) (by decide) (by decide) (by decide)).2.2.1,
    (claim_C8_duplicate_no_penalty (runGuesses (initRound ['C', 'A', 'T']) [['A']])
      ['a'] (by decide) (by decide) (by decide) (by decide)).2.2.2⟩

/-- Claim C9: the guess length check counts UTF-8 bytes, not characters:
on a round still in progress, every trimmed input consisting of exactly one
non-ASCII character (more than one byte in UTF-8) is rejected as an
invalid-length guess, before the alphabetic check is ever reached. -/
theorem claim_C9_multibyte_rejected (r : Round) (s : List Char) (c : Char)
    (h1 : outcome r = .inProgress) (h2 : rustTrim s = [c])
    (h3 : 0x80 ≤ c.toNat) :
    submitGuess r s = (r, .err .invalidGuessLength) := by
  apply submitGuess_len h1
  intro h
  rw [h2, rustStrLen_single, utf8CharLen] at h
  rw [if_neg (by omega)] at h
  by_cases hc : c.toNat ≤ 0x7FF
  · rw [if_pos hc] at h
    omega
  · rw [if_neg hc] at h
    by_cases hc2 : c.toNat ≤ 0xFFFF
    · rw [if_pos hc2] at h
      omega
    · rw [if_neg hc2] at h
      omega

/-- Witness for C9: the single accented character input is one character
but two UTF-8 bytes, and is rejected as an invalid-length guess. -/
theorem claim_C9_witness :
    submitGuess (initRound ['C', 'A', 'T']) ['é'] =
      (initRound ['C', 'A', 'T'], .err .invalidGuessLength) :=
  claim_C9_multibyte_rejected (initRound ['C', 'A', 'T']) ['é'] 'é'
    (by decide) (by decide) (by decide)

/-- Claim C4: when a new valid guess is accepted on a reachable round, the
reported correctness equals whether the secret contains the guessed
character; every secret position holding that character is revealed in the
resulting mask in that single call; a correct guess leaves the wrong count
unchanged and an incorrect one increments it by exactly one. -/
theorem claim_C4_reveal_all_occurrences (r : Round) (hr : Reachable r)
    (s : List Char) (r' : Round) (b : Bool)
    (h : submitGuess r s = (r', .ok b)) :
    b = r.secret.contains (guessedCharOf s) ∧
    (∀ i, i < r.secret.length → r.secret.getD i '_' = guessedCharOf s →
      r'.mask.getD i '_' = guessedCharOf s) ∧
    (b = true → r'.wrong = r.wrong) ∧
    (b = false → r'.wrong = r.wrong + 1) := by
  obtain ⟨hlen, -, -, -, -⟩ := inv_reachable hr
  rcases submitGuess_cases r s with ⟨e, heq⟩ | ⟨hip, halpha, hnew, heq⟩
  · rw [heq] at h
    exact absurd (congrArg Prod.snd h) (by simp)
  · rw [heq, applyGuess_eq] at h
    injection h with h1 h2
    injection h2 with h2
    subst h1
    refine ⟨h2.symm, ?_, ?_, ?_⟩
    · intro i hi hie
      show (revealMatches (guessedCharOf s) r.secret r.mask).getD i '_' =
        guessedCharOf s
      rw [revealMatches_getD _ _ _ i '_' hlen.symm hi, if_pos hie]
    · intro hb
      rw [hb] at h2
      show (if r.secret.contains (guessedCharOf s) then r.wrong
        else r.wrong + 1) = r.wrong
      rw [if_pos h2]
    · intro hb
      rw [hb] at h2
      show (if r.secret.contains (guessedCharOf s) then r.wrong
        else r.wrong + 1) = r.wrong + 1
      rw [if_neg (by rw [h2]; exact Bool.false_ne_true)]

/-- Witness for C4: on the round with secret word LEVEL, guessing L reveals
both position 0 and position 4 in the one call. -/
theorem claim_C4_witness :
    (⟨['L', 'E', 'V', 'E', 'L'], ['L', '_', '_', '_', 'L'], ['L'], 0⟩ :
        Round).mask.getD 0 '_' = guessedCharOf ['L'] ∧
    (⟨['L', 'E', 'V', 'E', 'L'], ['L', '_', '_', '_', 'L'], ['L'], 0⟩ :
        Round).mask.getD 4 '_' = guessedCharOf ['L'] :=
  ⟨(claim_C4_reveal_all_occurrences (initRound ['L', 'E', 'V', 'E', 'L'])
      ⟨['L', 'E', 'V', 'E', 'L'], [], rfl⟩ ['L']
      ⟨['L', 'E', 'V', 'E', 'L'], ['L', '_', '_', '_', 'L'], ['L'], 0⟩ true
      (by decide)).2.1 0 (by decide) (by decide),
    (claim_C4_reveal_all_occurrences (initRound ['L', 'E', 'V', 'E', 'L'])
      ⟨['L', 'E', 'V', 'E', 'L'], [], rfl⟩ ['L']
      ⟨['L', 'E', 'V', 'E', 'L'], ['L', '_', '_', '_', 'L'], ['L'], 0⟩ true
      (by decide)).2.1 4 (by decide) (by decide)⟩

/-- Claim C5: the wrong count starts at zero, never decreases across a
submission, increases by exactly one exactly when the submission reports an
incorrect validated new guess, which happens only when the guessed
character is absent from the secret, and on every reachable state it is
bounded by MaxWrong. -/
theorem claim_C5_wrong_count (w : List Char) (inputs : List (List Char))
    (s : List Char) (r : Round)
    (hr : r = runGuesses (initRound w) inputs) :
    (initRound w).wrong = 0 ∧
    r.wrong ≤ (submitGuess r s).1.wrong ∧
    ((submitGuess r s).1.wrong = r.wrong + 1 ↔
      (submitGuess r s).2 = .ok false) ∧
    ((submitGuess r s).2 = .ok false →
      r.secret.contains (guessedCharOf s) = false) ∧
    r.wrong ≤ MAX_WRONG_GUESSES := by
  have hinv : Inv r := hr ▸ inv_runGuesses inputs (inv_initRound w)
  refine ⟨rfl, ?_, ?_, ?_, hinv.2.1⟩
  · rcases submitGuess_cases r s with ⟨e, heq⟩ | ⟨hip, halpha, hnew, heq⟩
    · rw [heq]
    · rw [heq, applyGuess_eq]
      show r.wrong ≤ if r.secret.contains (guessedCharOf s) then r.wrong
        else r.wrong + 1
      by_cases hc : r.secret.contains (guessedCharOf s) = true
      · rw [if_pos hc]
      · rw [if_neg hc]
        omega
  · rcases submitGuess_cases r s with ⟨e, heq⟩ | ⟨hip, halpha, hnew, heq⟩
    · rw [heq]
      constructor
      · intro hw
        exact absurd (show r.wrong = r.wrong + 1 from hw) (by omega)
      · intro hw
        exact absurd hw (by simp)
    · rw [heq, applyGuess_eq]
      show (if r.secret.contains (guessedCharOf s) then r.wrong
          else r.wrong + 1) = r.wrong + 1 ↔
        SubmitResult.ok (r.secret.contains (guessedCharOf s)) = .ok false
      by_cases hc : r.secret.contains (guessedCharOf s) = true
      · rw [if_pos hc, hc]
        constructor
        · intro hw
          exact absurd hw (by omega)
        · intro hw
          injection hw with hw
          exact absurd hw (by simp)
      · have hcf : r.secret.contains (guessedCharOf s) = false := by
          simpa using hc
        rw [if_neg hc, hcf]
        simp
  · rcases submitGuess_cases r s with ⟨e, heq⟩ | ⟨hip, halpha, hnew, heq⟩
    · rw [heq]
      intro hw
      exact absurd hw (by simp)
    · rw [heq, applyGuess_eq]
      intro hw
      exact SubmitResult.ok.inj hw

/-- Witness for C5: a fresh round with secret word CAT after one wrong
guess X has its wrong count within the bound. -/
theorem claim_C5_witness :
    (runGuesses (initRound ['C', 'A', 'T']) [['X']]).wrong ≤
      MAX_WRONG_GUESSES :=
  (claim_C5_wrong_count ['C', 'A', 'T'] [['X']] ['Q'] _ rfl).2.2.2.2

/-- Claim C6: guessing is case-insensitive: for every round state,
submitting an ASCII letter and submitting its uppercase form produce
identical results; and after either is accepted, submitting any letter with
the same uppercase form (in particular the other case) on the still-running
round fails with the duplicate-guess error. -/
theorem claim_C6_case_insensitive (r : Round) (c : Char)
    (hc : isAsciiAlphabetic c = true) :
    submitGuess r [c] = submitGuess r [toAsciiUppercase c] ∧
    (∀ r' b, submitGuess r [c] = (r', .ok b) → outcome r' = .inProgress →
      ∀ d : Char, isAsciiAlphabetic d = true →
        toAsciiUppercase d = toAsciiUppercase c →
        submitGuess r' [d] = (r', .err .duplicateGuess)) := by
  have hcup : isAsciiAlphabetic (toAsciiUppercase c) = true := by
    rw [isAsciiAlphabetic_toAsciiUppercase]
    exact hc
  have hgc : guessedCharOf [c] = toAsciiUppercase c :=
    guessedCharOf_single (alpha_not_whitespace hc)
  have hgcu : guessedCharOf [toAsciiUppercase c] = toAsciiUppercase c := by
    rw [guessedCharOf_single (alpha_not_whitespace hcup)]
    exact toAsciiUppercase_idem c
  have hlc : rustStrLen (rustTrim [c]) = 1 := by
    rw [rustTrim_single (alpha_not_whitespace hc), rustStrLen_single]
    exact alpha_utf8CharLen hc
  have hlcu : rustStrLen (rustTrim [toAsciiUppercase c]) = 1 := by
    rw [rustTrim_single (alpha_not_whitespace hcup), rustStrLen_single]
    exact alpha_utf8CharLen hcup
  refine ⟨submitGuess_congr r (by rw [hlc, hlcu]) (by rw [hgc, hgcu]), ?_⟩
  intro r' b h hip' d hd hdu
  rcases submitGuess_cases r [c] with ⟨e, heq⟩ | ⟨hip, halpha, hnew, heq⟩
  · rw [heq] at h
    exact absurd (congrArg Prod.snd h) (by simp)
  · rw [heq] at h
    have h1 := congrArg Prod.fst h
    simp only at h1
    have hmem : r'.guessed.contains (toAsciiUppercase c) = true := by
      rw [← h1, applyGuess_fst]
      show (sortChars (r.guessed ++ [guessedCharOf [c]])).contains
        (toAsciiUppercase c) = true
      rw [contains_iff_mem, mem_sortChars]
      simp [hgc]
    have hgd : guessedCharOf [d] = toAsciiUppercase c := by
      rw [guessedCharOf_single (alpha_not_whitespace hd)]
      exact hdu
    have hld : rustStrLen (rustTrim [d]) = 1 := by
      rw [rustTrim_single (alpha_not_whitespace hd), rustStrLen_single]
      exact alpha_utf8CharLen hd
    exact submitGuess_dup hip' hld (by rw [hgd]; exact hcup)
      (by rw [hgd]; exact hmem)

/-- Witness for C6: on the round with secret word CAT, guessing a and A
give identical results, and after a is accepted, guessing A is rejected as
a duplicate. -/
theorem claim_C6_witness :
    submitGuess (initRound ['C', 'A', 'T']) ['a'] =
      submitGuess (initRound ['C', 'A', 'T']) ['A'] ∧
    submitGuess (⟨['C', 'A', 'T'], ['_', 'A', '_'], ['A'], 0⟩ : Round) ['A'] =
      ((⟨['C', 'A', 'T'], ['_', 'A', '_'], ['A'], 0⟩ : Round),
        .err .duplicateGuess) :=
  ⟨(claim_C6_case_insensitive (initRound ['C', 'A', 'T']) 'a' (by decide)).1,
    (claim_C6_case_insensitive (initRound ['C', 'A', 'T']) 'a' (by decide)).2
      ⟨['C', 'A', 'T'], ['_', 'A', '_'], ['A'], 0⟩ true (by decide) (by decide)
      'A' (by decide) (by decide)⟩

/-- Claim C7: for every secret word and every sequence of guesses, the
mask has exactly the word's length and keeps it under any further inputs,
and revealing is monotonic: a revealed position keeps its character for the
remainder of the round. -/
theorem claim_C7_mask_length_monotonic (w : List Char)
    (inputs more : List (List Char)) (r : Round)
    (hr : r = runGuesses (initRound w) inputs) :
    r.mask.length = w.length ∧
    (runGuesses r more).mask.length = w.length ∧
    (∀ i, r.mask.getD i '_' ≠ '_' →
      (runGuesses r more).mask.getD i '_' = r.mask.getD i '_') := by
  subst hr
  refine ⟨mask_length_reachable w inputs, ?_, ?_⟩
  · rw [← runGuesses_append]
    exact mask_length_reachable w (inputs ++ more)
  · intro i hrev
    exact mask_mono_run more (inv_runGuesses inputs (inv_initRound w)) i hrev

/-- Witness for C7: on the round with secret word CAT, position 0 revealed
by guessing C stays revealed after the wrong guess X. -/
theorem claim_C7_witness :
    (runGuesses (runGuesses (initRound ['C', 'A', 'T']) [['C']])
        [['X']]).mask.getD 0 '_' =
      (runGuesses (initRound ['C', 'A', 'T']) [['C']]).mask.getD 0 '_' :=
  (claim_C7_mask_length_monotonic ['C', 'A', 'T'] [['C']] [['X']] _ rfl).2.2 0
    (by decide)

/-- Claim C10, counterexample: the one-character secret word sharp-s
satisfies the claim's hypothesis — its ASCII-uppercased form is the sharp s
itself, which is not an ASCII alphabetic character — yet the program can
reach Won on that word: Rust's `String::to_uppercase` maps it to the
two-letter word SS (the one-to-many Unicode mapping, main.rs line 102), so
the constructed round state is `initRoundFromChars` of SS, and the single
guess s reveals both positions and wins the round at once. -/
theorem claim_C10_counterexample :
    isAsciiAlphabetic (rustUpperChar 'ß') = false ∧
    rustToUppercaseFull ['ß'] = ['S', 'S'] ∧
    outcome (runGuesses (initRoundFromChars (rustToUppercaseFull ['ß']))
      [['s']]) = .won := by
  decide

/-- Claim C10 as amended: if the program's normalized secret — the
character sequence produced by the uppercasing at construction — contains
at any position a character that is not ASCII alphabetic (a digit, a
hyphen, a letter whose Unicode uppercase is not an ASCII letter), then no
sequence of guesses can ever bring the round to the Won outcome: every
accepted guess is an ASCII alphabetic character, so that mask position can
never be revealed. -/
theorem claim_C10_never_won_amended (cs : List Char) (i : Nat)
    (h1 : i < cs.length)
    (h2 : isAsciiAlphabetic (cs.getD i '_') = false) :
    ∀ inputs, outcome (runGuesses (initRoundFromChars cs) inputs) ≠ .won := by
  intro inputs hwon
  obtain ⟨hlen, -, -, -, hbad⟩ :=
    inv_runGuesses inputs (inv_initRoundFromChars cs)
  have hsec : (runGuesses (initRoundFromChars cs) inputs).secret = cs := by
    rw [runGuesses_secret]
    rfl
  have hi : i < (runGuesses (initRoundFromChars cs) inputs).secret.length := by
    rw [hsec]
    exact h1
  have hm := hbad i hi (by rw [hsec]; exact h2)
  rw [outcome_won_iff] at hwon
  have hmem : '_' ∈ (runGuesses (initRoundFromChars cs) inputs).mask := by
    have hib : i < (runGuesses (initRoundFromChars cs) inputs).mask.length := by
      omega
    have hx := getD_mem _ i '_' hib
    rwa [hm] at hx
  exact hwon.2 _ hmem rfl

/-- Witness for C10: the normalized secret D1G contains the digit one, so
the round is never Won, in particular after both of its letters are
guessed. -/
theorem claim_C10_witness :
    outcome (runGuesses (initRoundFromChars ['D', '1', 'G'])
      [['D'], ['G']]) ≠ .won :=
  claim_C10_never_won_amended ['D', '1', 'G'] 1 (by decide) (by decide)
    [['D'], ['G']]

end Hangman
